import Mathlib

/-!
Verification of the spike-removal core of unspike-gpkg (src/unspike.py).

Points are modelled as lists of real coordinates (the code uses numpy
vectors of dimension 2 or 3); `calculate_angle`, the per-ring filter
`filter_polygon` and the dispatcher `filter_vertices` are shallow
embeddings of the functions of the same names.  The external shapely
validity check and repair (`is_valid` / `make_valid`) are abstracted as
parameters `isValid` / `makeValid`, since they live outside the
repository.  The `featureId` and `verbose` arguments are retained even
though the filtering logic never reads them, mirroring the source
signatures.
-/

namespace Unspike

/-- A vertex: an ordered tuple of real coordinates (dimension 2 or 3 in
practice; the code works elementwise for any dimension). -/
abbrev Pt := List ℝ

/-- Elementwise difference `p - q`, as `np.array(p) - np.array(q)`. -/
def sub (p q : Pt) : Pt := List.zipWith (· - ·) p q

/-- Dot product, as `np.dot`. -/
def dot (v w : Pt) : ℝ := (List.zipWith (· * ·) v w).sum

/-- Euclidean norm, as `np.linalg.norm`. -/
noncomputable def norm (v : Pt) : ℝ := Real.sqrt (dot v v)

/-- The degenerate-edge epsilon `1e-10` from `calculate_angle`. -/
noncomputable def eps : ℝ := 1 / 10 ^ 10

open Classical in
/-- Embedding of `calculate_angle` (src/unspike.py:24-52): vectors from
`p1` to `p0` and `p2`; if either norm is below `1e-10` return `180.0`,
otherwise the arccos of the clipped normalized dot product, in degrees. -/
noncomputable def calculate_angle (p0 p1 p2 : Pt) : ℝ :=
  if norm (sub p0 p1) < eps ∨ norm (sub p2 p1) < eps then 180
  else
    Real.arccos (max (-1) (min 1
        (dot (sub p0 p1) (sub p2 p1) / (norm (sub p0 p1) * norm (sub p2 p1)))))
      * (180 / Real.pi)

open Classical in
/-- Embedding of the inner `check_angle` of `filter_polygon`
(src/unspike.py:69-73): keep the vertex iff the angle is at least
`minAngle`, otherwise report one removed spike. -/
noncomputable def check_angle (minAngle : ℝ) (p c n : Pt) : Option Pt × ℕ :=
  if minAngle ≤ calculate_angle p c n then (some c, 0) else (none, 1)

/-- Python `coords[i - 1]`: for `i = 0` this is `coords[-1]`, the last
element of the full coordinate list (the duplicated closing point). -/
def pyPrev (coords : List Pt) (i : ℕ) : Pt :=
  if i = 0 then coords.getLastD [] else coords.getD (i - 1) []

/-- One iteration of the main loop of `filter_polygon`
(src/unspike.py:80-85): look up `prev`, `curr`, `next`, run
`check_angle`, append the kept vertex and accumulate the spike count. -/
noncomputable def passStep (minAngle : ℝ) (coords : List Pt)
    (acc : List Pt × ℕ) (i : ℕ) : List Pt × ℕ :=
  match check_angle minAngle (pyPrev coords i) (coords.getD i [])
      (coords.getD ((i + 1) % (coords.length - 1)) []) with
  | (some p, s) => (acc.1 ++ [p], acc.2 + s)
  | (none, s) => (acc.1, acc.2 + s)

/-- The main pass of `filter_polygon` (src/unspike.py:75-85): iterate
over all indices of `coords` except the last. -/
noncomputable def mainPass (minAngle : ℝ) (coords : List Pt) : List Pt × ℕ :=
  (List.range (coords.length - 1)).foldl (passStep minAngle coords) ([], 0)

/-- Midpoint of two points, as `(np.array(a) + np.array(b)) / 2`. -/
noncomputable def midpt (p q : Pt) : Pt :=
  List.zipWith (fun a b => (a + b) / 2) p q

open Classical in
/-- The seam re-check of `filter_polygon` (src/unspike.py:88-94): if the
angle at the first kept vertex (against the last and second kept
vertices) is below threshold, replace it in place by the midpoint of its
two neighbors and count one more spike. -/
noncomputable def seamFix (minAngle : ℝ) (nc : List Pt) (s : ℕ) : List Pt × ℕ :=
  if minAngle ≤ calculate_angle (nc.getLastD []) (nc.getD 0 []) (nc.getD 1 [])
  then (nc, s)
  else (midpt (nc.getLastD []) (nc.getD 1 []) :: nc.tail, s + 1)

/-- Result geometry of one filtering call: `Polygon()` (empty), a single
polygon given by its closed exterior ring, or a multi-polygon. -/
inductive Geom where
  | empty : Geom
  | poly : List Pt → Geom
  | multi : List (List Pt) → Geom

open Classical in
/-- Embedding of `filter_polygon` (src/unspike.py:55-107) on the closed
exterior coordinate list of the input polygon.  `isValid` and
`makeValid` abstract the shapely validity check and repair invoked at
lines 104-105.  `featureId` and `verbose` are accepted and ignored, as
in the source. -/
noncomputable def filter_polygon (isValid : List Pt → Bool)
    (makeValid : List Pt → Geom) (coords : List Pt) (featureId : String)
    (minAngle : ℝ) (verbose : Bool) : Geom × ℕ :=
  let r := mainPass minAngle coords
  if 3 ≤ r.1.length then
    let r2 := seamFix minAngle r.1 r.2
    let closed := r2.1 ++ [r2.1.headD []]
    (if isValid closed then Geom.poly closed else makeValid closed, r2.2)
  else
    (Geom.empty, r.2)

/-- Input geometry of `filter_vertices`: a polygon (closed exterior
ring), a multi-polygon, or any other geometry kind, carried by name. -/
inductive GeomIn where
  | polygon : List Pt → GeomIn
  | multiPolygon : List (List Pt) → GeomIn
  | other : String → GeomIn

/-- One iteration of the MultiPolygon loop of `filter_vertices`
(src/unspike.py:132-136): filter the part under a derived
sub-identifier, skip it if empty, collect its parts (flattening a
multi-part result), and always add its spike count. -/
noncomputable def fvStep (isValid : List Pt → Bool) (makeValid : List Pt → Geom)
    (featureId : String) (minAngle : ℝ) (verbose : Bool)
    (acc : List (List Pt) × ℕ) (ip : ℕ × List Pt) : List (List Pt) × ℕ :=
  let fr := filter_polygon isValid makeValid ip.2
      (featureId ++ "_" ++ toString (ip.1 + 1)) minAngle verbose
  (match fr.1 with
   | .empty => acc.1
   | .poly q => acc.1 ++ [q]
   | .multi qs => acc.1 ++ qs,
   acc.2 + fr.2)

open Classical in
/-- Embedding of `filter_vertices` (src/unspike.py:110-146): dispatch on
the geometry kind; for a multi-polygon, filter each part in order,
then reassemble by surviving part count; any other kind is a
`ValueError` naming the offending kind. -/
noncomputable def filter_vertices (isValid : List Pt → Bool)
    (makeValid : List Pt → Geom) (g : GeomIn) (featureId : String)
    (minAngle : ℝ) (verbose : Bool) : Except String (Geom × ℕ) :=
  match g with
  | .polygon coords =>
      .ok (filter_polygon isValid makeValid coords featureId minAngle verbose)
  | .multiPolygon ps =>
      let r := ps.enum.foldl
        (fvStep isValid makeValid featureId minAngle verbose) ([], 0)
      if 1 < r.1.length then .ok (Geom.multi r.1, r.2)
      else if r.1.length = 1 then .ok (Geom.poly (r.1.headD []), r.2)
      else .ok (Geom.empty, r.2)
  | .other kind => .error ("Unsupported geometry type: " ++ kind)

/-! ### Basic facts about the vector operations -/

lemma dot_self_nonneg (v : Pt) : 0 ≤ dot v v := by
  induction v with
  | nil => simp [dot]
  | cons x t ih =>
      have h : dot (x :: t) (x :: t) = x * x + dot t t := rfl
      rw [h]
      exact add_nonneg (mul_self_nonneg x) ih

lemma eps_pos : (0 : ℝ) < eps := by
  unfold eps; norm_num

lemma norm_lt_eps_iff (v : Pt) : norm v < eps ↔ dot v v < eps ^ 2 := by
  unfold norm
  exact Real.sqrt_lt' eps_pos

lemma norm_sub_self_eq_zero (p : Pt) : norm (sub p p) = 0 := by
  have h : dot (sub p p) (sub p p) = 0 := by
    induction p with
    | nil => simp [dot, sub]
    | cons x t ih =>
        have hs : sub (x :: t) (x :: t) = (x - x) :: sub t t := rfl
        have hd : dot ((x - x) :: sub t t) ((x - x) :: sub t t)
            = (x - x) * (x - x) + dot (sub t t) (sub t t) := rfl
        rw [hs, hd, ih]
        ring
  unfold norm
  rw [h, Real.sqrt_zero]

/-! ### Evaluation lemmas for `calculate_angle` -/

/-- The degenerate branch: either vector shorter than `eps` gives 180. -/
lemma calculate_angle_of_short (p0 p1 p2 : Pt)
    (h : norm (sub p0 p1) < eps ∨ norm (sub p2 p1) < eps) :
    calculate_angle p0 p1 p2 = 180 := by
  unfold calculate_angle
  rw [if_pos h]

/-- Coincident first neighbor: the angle is 180. -/
lemma calculate_angle_of_eq (p1 p2 : Pt) :
    calculate_angle p1 p1 p2 = 180 :=
  calculate_angle_of_short p1 p1 p2
    (Or.inl (by rw [norm_sub_self_eq_zero]; exact eps_pos))

/-- The angle returned by `calculate_angle` never exceeds 180. -/
lemma calculate_angle_le_180 (p0 p1 p2 : Pt) :
    calculate_angle p0 p1 p2 ≤ 180 := by
  unfold calculate_angle
  by_cases h : norm (sub p0 p1) < eps ∨ norm (sub p2 p1) < eps
  · rw [if_pos h]
  · rw [if_neg h]
    have hpi : (0 : ℝ) < Real.pi := Real.pi_pos
    have harc := Real.arccos_le_pi
      (max (-1) (min 1
        (dot (sub p0 p1) (sub p2 p1) / (norm (sub p0 p1) * norm (sub p2 p1)))))
    have hmul : (180 : ℝ) / Real.pi > 0 := by positivity
    calc Real.arccos _ * (180 / Real.pi)
        ≤ Real.pi * (180 / Real.pi) := by
          exact mul_le_mul_of_nonneg_right harc (le_of_lt hmul)
      _ = 180 := by field_simp

/-- On non-degenerate input, the kept/dropped comparison against a 90
degree threshold is the sign of the dot product. -/
lemma ninety_le_angle_iff (p0 p1 p2 : Pt)
    (h1 : eps ^ 2 ≤ dot (sub p0 p1) (sub p0 p1))
    (h2 : eps ^ 2 ≤ dot (sub p2 p1) (sub p2 p1)) :
    (90 ≤ calculate_angle p0 p1 p2 ↔ dot (sub p0 p1) (sub p2 p1) ≤ 0) := by
  have hn1 : ¬ norm (sub p0 p1) < eps := by
    rw [norm_lt_eps_iff]; exact not_lt.2 h1
  have hn2 : ¬ norm (sub p2 p1) < eps := by
    rw [norm_lt_eps_iff]; exact not_lt.2 h2
  have hpos1 : 0 < norm (sub p0 p1) :=
    lt_of_lt_of_le eps_pos (not_lt.1 hn1)
  have hpos2 : 0 < norm (sub p2 p1) :=
    lt_of_lt_of_le eps_pos (not_lt.1 hn2)
  have hden : 0 < norm (sub p0 p1) * norm (sub p2 p1) := mul_pos hpos1 hpos2
  unfold calculate_angle
  rw [if_neg (by push_neg; exact ⟨not_lt.1 hn1, not_lt.1 hn2⟩)]
  set c : ℝ := dot (sub p0 p1) (sub p2 p1) / (norm (sub p0 p1) * norm (sub p2 p1))
    with hc
  have hclip : max (-1) (min 1 c) ≤ 0 ↔ c ≤ 0 := by
    constructor
    · intro h
      by_contra hcpos
      push_neg at hcpos
      have h1' : 0 < min 1 c := lt_min one_pos hcpos
      have h2' : min 1 c ≤ max (-1) (min 1 c) := le_max_right _ _
      linarith
    · intro h
      have hm : min 1 c ≤ 0 := le_trans (min_le_right 1 c) h
      exact max_le (by norm_num) hm
  have hcsign : c ≤ 0 ↔ dot (sub p0 p1) (sub p2 p1) ≤ 0 := by
    rw [hc, div_nonpos_iff]
    constructor
    · rintro (⟨ha, hb⟩ | ⟨ha, hb⟩)
      · exact absurd hden (not_lt.2 hb)
      · exact ha
    · intro h
      exact Or.inr ⟨h, le_of_lt hden⟩
  have hpi : (0 : ℝ) < Real.pi := Real.pi_pos
  have hiff1 : 90 ≤ Real.arccos (max (-1) (min 1 c)) * (180 / Real.pi)
      ↔ Real.pi / 2 ≤ Real.arccos (max (-1) (min 1 c)) := by
    have key : Real.arccos (max (-1) (min 1 c)) * (180 / Real.pi)
        = Real.arccos (max (-1) (min 1 c)) * 180 / Real.pi := by ring
    rw [key, le_div_iff₀ hpi]
    constructor <;> intro h <;> linarith
  have hiff2 : Real.pi / 2 ≤ Real.arccos (max (-1) (min 1 c))
      ↔ max (-1) (min 1 c) ≤ 0 := by
    rw [Real.arccos_eq_pi_div_two_sub_arcsin]
    constructor
    · intro h
      have : Real.arcsin (max (-1) (min 1 c)) ≤ 0 := by linarith
      exact Real.arcsin_nonpos.1 this
    · intro h
      have : Real.arcsin (max (-1) (min 1 c)) ≤ 0 := Real.arcsin_nonpos.2 h
      linarith
  rw [hiff1, hiff2, hclip, hcsign]

/-- On non-degenerate input, a positive dot product makes the angle
fall below 90 degrees. -/
lemma angle_lt_ninety_of_dot_pos (p0 p1 p2 : Pt)
    (h1 : eps ^ 2 ≤ dot (sub p0 p1) (sub p0 p1))
    (h2 : eps ^ 2 ≤ dot (sub p2 p1) (sub p2 p1))
    (hd : 0 < dot (sub p0 p1) (sub p2 p1)) :
    calculate_angle p0 p1 p2 < 90 := by
  by_contra h
  push_neg at h
  exact absurd ((ninety_le_angle_iff p0 p1 p2 h1 h2).1 h) (not_le.2 hd)

/-! ### Characterization of the main pass -/

open Classical in
/-- Whether the main pass keeps the vertex at index `i`: the angle at
`coords[i]`, measured against `coords[i-1]` (Python indexing, so the
closing duplicate when `i = 0`) and `coords[(i+1) % (len-1)]`, is at
least `minAngle`. -/
noncomputable def keepB (minAngle : ℝ) (coords : List Pt) (i : ℕ) : Bool :=
  decide (minAngle ≤ calculate_angle (pyPrev coords i) (coords.getD i [])
    (coords.getD ((i + 1) % (coords.length - 1)) []))

lemma keepB_eq_true_iff (minAngle : ℝ) (coords : List Pt) (i : ℕ) :
    keepB minAngle coords i = true ↔
      minAngle ≤ calculate_angle (pyPrev coords i) (coords.getD i [])
        (coords.getD ((i + 1) % (coords.length - 1)) []) := by
  unfold keepB
  exact decide_eq_true_iff

lemma passStep_of_keep (minAngle : ℝ) (coords : List Pt)
    (acc : List Pt × ℕ) (i : ℕ) (h : keepB minAngle coords i = true) :
    passStep minAngle coords acc i = (acc.1 ++ [coords.getD i []], acc.2) := by
  have h' := (keepB_eq_true_iff minAngle coords i).1 h
  unfold passStep check_angle
  rw [if_pos h']
  rfl

lemma passStep_of_drop (minAngle : ℝ) (coords : List Pt)
    (acc : List Pt × ℕ) (i : ℕ) (h : keepB minAngle coords i = false) :
    passStep minAngle coords acc i = (acc.1, acc.2 + 1) := by
  have h' : ¬ minAngle ≤ calculate_angle (pyPrev coords i) (coords.getD i [])
      (coords.getD ((i + 1) % (coords.length - 1)) []) := by
    intro hc
    rw [(keepB_eq_true_iff minAngle coords i).2 hc] at h
    exact Bool.noConfusion h
  unfold passStep check_angle
  rw [if_neg h']

lemma mainPass_foldl (minAngle : ℝ) (coords : List Pt) (l : List ℕ)
    (acc : List Pt × ℕ) :
    l.foldl (passStep minAngle coords) acc =
      (acc.1 ++ (l.filter (keepB minAngle coords)).map (fun i => coords.getD i []),
       acc.2 + (l.filter (fun i => ! keepB minAngle coords i)).length) := by
  induction l generalizing acc with
  | nil => simp
  | cons i t ih =>
      rw [List.foldl_cons, ih]
      cases hk : keepB minAngle coords i with
      | true =>
          rw [passStep_of_keep minAngle coords acc i hk]
          simp [List.filter_cons, hk]
      | false =>
          rw [passStep_of_drop minAngle coords acc i hk]
          simp [List.filter_cons, hk]
          omega

/-- The main pass keeps, in order, exactly the vertices whose index
passes the angle test, and counts one spike per dropped index. -/
lemma mainPass_eq (minAngle : ℝ) (coords : List Pt) :
    mainPass minAngle coords =
      (((List.range (coords.length - 1)).filter (keepB minAngle coords)).map
          (fun i => coords.getD i []),
       ((List.range (coords.length - 1)).filter
          (fun i => ! keepB minAngle coords i)).length) := by
  unfold mainPass
  rw [mainPass_foldl]
  simp

lemma filter_length_partition {α : Type} (p : α → Bool) (l : List α) :
    (l.filter p).length + (l.filter (fun a => ! p a)).length = l.length := by
  induction l with
  | nil => simp
  | cons x t ih =>
      cases h : p x <;> simp [List.filter_cons, h] <;> omega

/-- Kept vertices plus removed spikes account for the whole working
list. -/
lemma mainPass_length_add_count (minAngle : ℝ) (coords : List Pt) :
    (mainPass minAngle coords).1.length + (mainPass minAngle coords).2 =
      coords.length - 1 := by
  rw [mainPass_eq]
  simp only [List.length_map]
  have h := filter_length_partition (keepB minAngle coords)
    (List.range (coords.length - 1))
  simpa using h

lemma map_getD_range {α : Type} (d : α) :
    ∀ (n : ℕ) (l : List α), n ≤ l.length →
      (List.range n).map (fun i => l.getD i d) = l.take n := by
  intro n
  induction n with
  | zero => intro l _; simp
  | succ k ih =>
      intro l h
      have hk : k < l.length := h
      have hsome : l[k]? = some (l[k]) := List.getElem?_eq_getElem hk
      rw [List.range_succ, List.map_append, ih l (le_of_lt hk), List.take_succ,
        hsome]
      simp [List.getD_eq_getElem?_getD, hsome]

lemma dropLast_append_getLastD {α : Type} {l : List α} (d : α) (h : l ≠ []) :
    l.dropLast ++ [l.getLastD d] = l := by
  have h1 : l.getLastD d = l.getLast h := by
    rw [List.getLastD_eq_getLast?, List.getLast?_eq_getLast l h]
    rfl
  rw [h1]
  exact List.dropLast_concat_getLast h

lemma headD_dropLast {α : Type} {l : List α} (d : α) (h : 2 ≤ l.length) :
    l.dropLast.headD d = l.getD 0 d := by
  match l with
  | [] => simp at h
  | [x] => simp at h
  | x :: y :: t => simp [List.dropLast]

/-- If every working index passes the angle test, the main pass keeps
everything, in place, with spike count zero. -/
lemma mainPass_of_all_keep (minAngle : ℝ) (coords : List Pt)
    (h : ∀ i < coords.length - 1, keepB minAngle coords i = true) :
    mainPass minAngle coords = (coords.dropLast, 0) := by
  rw [mainPass_eq]
  have hf : (List.range (coords.length - 1)).filter (keepB minAngle coords)
      = List.range (coords.length - 1) := by
    apply List.filter_eq_self.2
    intro i hi
    exact h i (List.mem_range.1 hi)
  have hf2 : (List.range (coords.length - 1)).filter
      (fun i => ! keepB minAngle coords i) = [] := by
    apply List.filter_eq_nil_iff.2
    intro i hi
    rw [h i (List.mem_range.1 hi)]
    simp
  rw [hf, hf2, map_getD_range [] (coords.length - 1) coords (Nat.sub_le _ _)]
  rw [← List.dropLast_eq_take]
  simp

lemma getLastD_eq_getD {α : Type} (l : List α) (d : α) :
    l.getLastD d = l.getD (l.length - 1) d := by
  rw [List.getLastD_eq_getLast?, List.getLast?_eq_getElem?,
    List.getD_eq_getElem?_getD]

lemma getD_dropLast {α : Type} (l : List α) (d : α) (j : ℕ)
    (h : j < l.length - 1) :
    l.dropLast.getD j d = l.getD j d := by
  rw [List.dropLast_eq_take, List.getD_eq_getElem?_getD,
    List.getD_eq_getElem?_getD, List.getElem?_take, if_pos h]

/-! ### Branch lemmas for `filter_polygon` -/

lemma filter_polygon_collapse (iv : List Pt → Bool) (mv : List Pt → Geom)
    (coords : List Pt) (fid : String) (m : ℝ) (vb : Bool)
    (h : (mainPass m coords).1.length < 3) :
    filter_polygon iv mv coords fid m vb = (Geom.empty, (mainPass m coords).2) := by
  simp only [filter_polygon]
  rw [if_neg (not_le.2 h)]

lemma filter_polygon_noFix (iv : List Pt → Bool) (mv : List Pt → Geom)
    (coords : List Pt) (fid : String) (m : ℝ) (vb : Bool)
    (h3 : 3 ≤ (mainPass m coords).1.length)
    (hangle : m ≤ calculate_angle ((mainPass m coords).1.getLastD [])
        ((mainPass m coords).1.getD 0 []) ((mainPass m coords).1.getD 1 [])) :
    filter_polygon iv mv coords fid m vb =
      (if iv ((mainPass m coords).1 ++ [(mainPass m coords).1.headD []])
       then Geom.poly ((mainPass m coords).1 ++ [(mainPass m coords).1.headD []])
       else mv ((mainPass m coords).1 ++ [(mainPass m coords).1.headD []]),
       (mainPass m coords).2) := by
  simp only [filter_polygon]
  rw [if_pos h3]
  unfold seamFix
  rw [if_pos hangle]

lemma filter_polygon_fix (iv : List Pt → Bool) (mv : List Pt → Geom)
    (coords : List Pt) (fid : String) (m : ℝ) (vb : Bool)
    (h3 : 3 ≤ (mainPass m coords).1.length)
    (hangle : calculate_angle ((mainPass m coords).1.getLastD [])
        ((mainPass m coords).1.getD 0 []) ((mainPass m coords).1.getD 1 []) < m) :
    filter_polygon iv mv coords fid m vb =
      (let mid := midpt ((mainPass m coords).1.getLastD [])
          ((mainPass m coords).1.getD 1 []);
       let closed := (mid :: (mainPass m coords).1.tail) ++ [mid];
       (if iv closed then Geom.poly closed else mv closed,
        (mainPass m coords).2 + 1)) := by
  simp only [filter_polygon]
  rw [if_pos h3]
  unfold seamFix
  rw [if_neg (not_le.2 hangle)]
  simp

/-- Core of claim C6: a closed, valid ring at least 4 long all of whose
working vertices pass the interior-angle test (against their true ring
neighbors) comes back unchanged with spike count zero. -/
lemma filter_polygon_of_no_spike (iv : List Pt → Bool) (mv : List Pt → Geom)
    (coords : List Pt) (fid : String) (m : ℝ) (vb : Bool)
    (hlen : 4 ≤ coords.length)
    (hcl : coords.getLastD [] = coords.getD 0 [])
    (hvalid : iv coords = true)
    (hall : ∀ i < coords.length - 1, m ≤ calculate_angle
        (coords.getD ((i + (coords.length - 1) - 1) % (coords.length - 1)) [])
        (coords.getD i [])
        (coords.getD ((i + 1) % (coords.length - 1)) [])) :
    filter_polygon iv mv coords fid m vb = (Geom.poly coords, 0) := by
  have hn : 3 ≤ coords.length - 1 := by omega
  have hne : coords ≠ [] := by
    intro h
    rw [h] at hlen
    simp at hlen
  have hm180 : m ≤ 180 := by
    have h0 := hall 0 (by omega)
    exact le_trans h0 (calculate_angle_le_180 _ _ _)
  have hkeep : ∀ i < coords.length - 1, keepB m coords i = true := by
    intro i hi
    rw [keepB_eq_true_iff]
    rcases Nat.eq_zero_or_pos i with h0 | hpos
    · subst h0
      have hp : pyPrev coords 0 = coords.getD 0 [] := by
        unfold pyPrev
        rw [if_pos rfl, hcl]
      rw [hp, calculate_angle_of_eq]
      exact hm180
    · have hp : pyPrev coords i = coords.getD (i - 1) [] := by
        unfold pyPrev
        rw [if_neg (Nat.pos_iff_ne_zero.1 hpos)]
      have hmod : (i + (coords.length - 1) - 1) % (coords.length - 1) = i - 1 := by
        have h1 : i + (coords.length - 1) - 1 = (i - 1) + (coords.length - 1) := by
          omega
        rw [h1, Nat.add_mod_right]
        exact Nat.mod_eq_of_lt (by omega)
      have := hall i hi
      rw [hmod] at this
      rw [hp]
      exact this
  have hmain : mainPass m coords = (coords.dropLast, 0) :=
    mainPass_of_all_keep m coords hkeep
  have hlen2 : coords.dropLast.length = coords.length - 1 := by
    simp [List.length_dropLast]
  have h3 : 3 ≤ (mainPass m coords).1.length := by
    rw [hmain]
    simpa [hlen2] using hn
  have hseam : m ≤ calculate_angle ((mainPass m coords).1.getLastD [])
      ((mainPass m coords).1.getD 0 []) ((mainPass m coords).1.getD 1 []) := by
    rw [hmain]
    simp only
    have hlast : coords.dropLast.getLastD [] =
        coords.getD (coords.length - 1 - 1) [] := by
      rw [getLastD_eq_getD, hlen2, getD_dropLast coords [] _ (by omega)]
    have h0' : coords.dropLast.getD 0 [] = coords.getD 0 [] :=
      getD_dropLast coords [] 0 (by omega)
    have h1' : coords.dropLast.getD 1 [] = coords.getD 1 [] :=
      getD_dropLast coords [] 1 (by omega)
    rw [hlast, h0', h1']
    have h0 := hall 0 (by omega)
    have hmod0 : (0 + (coords.length - 1) - 1) % (coords.length - 1)
        = coords.length - 1 - 1 := by
      rw [Nat.zero_add]
      exact Nat.mod_eq_of_lt (by omega)
    have hmod1 : (0 + 1) % (coords.length - 1) = 1 :=
      Nat.mod_eq_of_lt (by omega)
    rw [hmod0, hmod1] at h0
    exact h0
  rw [filter_polygon_noFix iv mv coords fid m vb h3 hseam, hmain]
  simp only
  have hhead : coords.dropLast.headD [] = coords.getD 0 [] :=
    headD_dropLast [] (by omega)
  rw [hhead, ← hcl, dropLast_append_getLastD [] hne, hvalid]
  simp

lemma keepB_eq_false_iff (minAngle : ℝ) (coords : List Pt) (i : ℕ) :
    keepB minAngle coords i = false ↔
      calculate_angle (pyPrev coords i) (coords.getD i [])
        (coords.getD ((i + 1) % (coords.length - 1)) []) < minAngle := by
  unfold keepB
  rw [decide_eq_false_iff_not, not_le]

/-! ### Claim theorems -/

/-- C7: whenever the magnitude of `p0 - p1` or of `p2 - p1` is below the
epsilon `1e-10`, `calculate_angle` returns exactly 180, regardless of
direction; the function is total, so no error is possible. -/
theorem c7_degenerate_angle (p0 p1 p2 : Pt)
    (h : norm (sub p0 p1) < eps ∨ norm (sub p2 p1) < eps) :
    calculate_angle p0 p1 p2 = 180 :=
  calculate_angle_of_short p0 p1 p2 h

theorem c7_degenerate_angle_witness :
    (norm (sub ([0, 0] : Pt) [0, 0]) < eps ∨
      norm (sub ([1, 0] : Pt) [0, 0]) < eps) ∧
    calculate_angle [0, 0] [0, 0] [1, 0] = 180 := by
  have h : norm (sub ([0, 0] : Pt) [0, 0]) < eps ∨
      norm (sub ([1, 0] : Pt) [0, 0]) < eps :=
    Or.inl (by rw [norm_sub_self_eq_zero]; exact eps_pos)
  exact ⟨h, c7_degenerate_angle [0, 0] [0, 0] [1, 0] h⟩

/-- C8: any geometry kind other than Polygon and MultiPolygon makes
`filter_vertices` fail with an error naming the offending kind, while
Polygon and MultiPolygon inputs always produce a result. -/
theorem c8_unsupported_kind :
    (∀ (iv : List Pt → Bool) (mv : List Pt → Geom) (k fid : String) (m : ℝ)
        (vb : Bool),
      filter_vertices iv mv (GeomIn.other k) fid m vb =
        Except.error ("Unsupported geometry type: " ++ k)) ∧
    (∀ (iv : List Pt → Bool) (mv : List Pt → Geom) (p : List Pt) (fid : String)
        (m : ℝ) (vb : Bool),
      ∃ r, filter_vertices iv mv (GeomIn.polygon p) fid m vb = Except.ok r) ∧
    (∀ (iv : List Pt → Bool) (mv : List Pt → Geom) (ps : List (List Pt))
        (fid : String) (m : ℝ) (vb : Bool),
      ∃ r, filter_vertices iv mv (GeomIn.multiPolygon ps) fid m vb =
        Except.ok r) := by
  refine ⟨fun iv mv k fid m vb => rfl, fun iv mv p fid m vb => ⟨_, rfl⟩,
    fun iv mv ps fid m vb => ?_⟩
  simp only [filter_vertices]
  split
  · exact ⟨_, rfl⟩
  · split
    · exact ⟨_, rfl⟩
    · exact ⟨_, rfl⟩

/-- C9: filtering is deterministic and ignores both the feature
identifier and the verbosity flag: the same geometry and threshold give
the same result under any identifier and verbosity. -/
theorem c9_id_verbose_irrelevant (iv : List Pt → Bool) (mv : List Pt → Geom)
    (g : GeomIn) (fid fid2 : String) (m : ℝ) (vb vb2 : Bool) :
    filter_vertices iv mv g fid m vb = filter_vertices iv mv g fid2 m vb2 := by
  cases g <;> rfl

/-- C10: on a closed ring (last stored point equal to the first) with a
threshold of at most 180 degrees, the main pass computes the angle at
index 0 against the closing duplicate, obtains exactly 180 by the
degenerate-edge rule, and therefore always keeps the first vertex, at
the head of the output list. -/
theorem c10_first_vertex_kept (m : ℝ) (coords : List Pt)
    (h2 : 2 ≤ coords.length)
    (hcl : coords.getLastD [] = coords.getD 0 [])
    (hm : m ≤ 180) :
    calculate_angle (pyPrev coords 0) (coords.getD 0 [])
        (coords.getD ((0 + 1) % (coords.length - 1)) []) = 180 ∧
    ∃ rest, (mainPass m coords).1 = coords.getD 0 [] :: rest := by
  have hp : pyPrev coords 0 = coords.getD 0 [] := by
    unfold pyPrev
    rw [if_pos rfl, hcl]
  have hangle : calculate_angle (pyPrev coords 0) (coords.getD 0 [])
      (coords.getD ((0 + 1) % (coords.length - 1)) []) = 180 := by
    rw [hp]
    exact calculate_angle_of_eq _ _
  refine ⟨hangle, ?_⟩
  have hk0 : keepB m coords 0 = true := by
    rw [keepB_eq_true_iff, hangle]
    exact hm
  have hn : coords.length - 1 = (coords.length - 2) + 1 := by omega
  rw [mainPass_eq, hn, List.range_succ_eq_map]
  simp only [List.filter_cons, hk0, if_true, List.map_cons]
  exact ⟨_, rfl⟩

theorem c10_first_vertex_kept_witness :
    (2 ≤ ([[0, 0], [4, 0], [4, 4], [0, 4], [0, 0]] : List Pt).length) ∧
    (([[0, 0], [4, 0], [4, 4], [0, 4], [0, 0]] : List Pt).getLastD [] =
      ([[0, 0], [4, 0], [4, 4], [0, 4], [0, 0]] : List Pt).getD 0 []) ∧
    ((90 : ℝ) ≤ 180) ∧
    (calculate_angle
        (pyPrev ([[0, 0], [4, 0], [4, 4], [0, 4], [0, 0]] : List Pt) 0)
        (([[0, 0], [4, 0], [4, 4], [0, 4], [0, 0]] : List Pt).getD 0 [])
        (([[0, 0], [4, 0], [4, 4], [0, 4], [0, 0]] : List Pt).getD
          ((0 + 1) % (([[0, 0], [4, 0], [4, 4], [0, 4], [0, 0]] : List Pt).length - 1)) []) = 180 ∧
      ∃ rest, (mainPass 90 ([[0, 0], [4, 0], [4, 4], [0, 4], [0, 0]] : List Pt)).1 =
        ([[0, 0], [4, 0], [4, 4], [0, 4], [0, 0]] : List Pt).getD 0 [] :: rest) := by
  refine ⟨by norm_num, rfl, by norm_num, ?_⟩
  exact c10_first_vertex_kept 90 [[0, 0], [4, 0], [4, 4], [0, 4], [0, 0]]
    (by norm_num) rfl (by norm_num)

/-- Modelled from the spec for claim C1: a main pass in which the
predecessor of every working index, including index 0, is looked up by
wrapping within the working list itself (the spec's "wrapping to the
end"), one loop iteration. -/
noncomputable def claimStep (minAngle : ℝ) (work : List Pt)
    (acc : List Pt × ℕ) (i : ℕ) : List Pt × ℕ :=
  match check_angle minAngle (work.getD ((i + work.length - 1) % work.length) [])
      (work.getD i []) (work.getD ((i + 1) % work.length) []) with
  | (some p, s) => (acc.1 ++ [p], acc.2 + s)
  | (none, s) => (acc.1, acc.2 + s)

/-- Modelled from the spec for claim C1: the whole working-list-wrapping
main pass the claim describes. -/
noncomputable def claimPass (minAngle : ℝ) (work : List Pt) : List Pt × ℕ :=
  (List.range work.length).foldl (claimStep minAngle work) ([], 0)

/-- C1 (amended): the main pass keeps, in order, exactly the vertices
whose angle test passes, one spike per dropped vertex, where the
successor wraps within the working list but the predecessor of index 0
is the duplicated closing point `coords[-1]` of the full list — not the
working list's last element as the claim states. -/
theorem c1_main_pass_characterization (m : ℝ) (coords : List Pt) :
    mainPass m coords =
      (((List.range (coords.length - 1)).filter (keepB m coords)).map
          (fun i => coords.getD i []),
       ((List.range (coords.length - 1)).filter
          (fun i => ! keepB m coords i)).length) ∧
    ∀ i : ℕ, keepB m coords i = true ↔
      m ≤ calculate_angle
        (if i = 0 then coords.getLastD [] else coords.getD (i - 1) [])
        (coords.getD i [])
        (coords.getD ((i + 1) % (coords.length - 1)) []) := by
  refine ⟨mainPass_eq m coords, fun i => ?_⟩
  rw [keepB_eq_true_iff]
  unfold pyPrev
  rfl

open Classical in
/-- Whether the spec-modelled pass of claim C1 keeps index `i`. -/
noncomputable def claimKeepB (minAngle : ℝ) (work : List Pt) (i : ℕ) : Bool :=
  decide (minAngle ≤ calculate_angle
    (work.getD ((i + work.length - 1) % work.length) [])
    (work.getD i []) (work.getD ((i + 1) % work.length) []))

lemma claimKeepB_eq_true_iff (minAngle : ℝ) (work : List Pt) (i : ℕ) :
    claimKeepB minAngle work i = true ↔
      minAngle ≤ calculate_angle
        (work.getD ((i + work.length - 1) % work.length) [])
        (work.getD i []) (work.getD ((i + 1) % work.length) []) := by
  unfold claimKeepB
  exact decide_eq_true_iff

lemma claimKeepB_eq_false_iff (minAngle : ℝ) (work : List Pt) (i : ℕ) :
    claimKeepB minAngle work i = false ↔
      calculate_angle (work.getD ((i + work.length - 1) % work.length) [])
        (work.getD i []) (work.getD ((i + 1) % work.length) []) < minAngle := by
  unfold claimKeepB
  rw [decide_eq_false_iff_not, not_le]

lemma claimStep_of_keep (minAngle : ℝ) (work : List Pt)
    (acc : List Pt × ℕ) (i : ℕ) (h : claimKeepB minAngle work i = true) :
    claimStep minAngle work acc i = (acc.1 ++ [work.getD i []], acc.2) := by
  have h' := (claimKeepB_eq_true_iff minAngle work i).1 h
  unfold claimStep check_angle
  rw [if_pos h']
  rfl

lemma claimStep_of_drop (minAngle : ℝ) (work : List Pt)
    (acc : List Pt × ℕ) (i : ℕ) (h : claimKeepB minAngle work i = false) :
    claimStep minAngle work acc i = (acc.1, acc.2 + 1) := by
  have h' := (claimKeepB_eq_false_iff minAngle work i).1 h
  unfold claimStep check_angle
  rw [if_neg (not_le.2 h')]

lemma claimPass_foldl (minAngle : ℝ) (work : List Pt) (l : List ℕ)
    (acc : List Pt × ℕ) :
    l.foldl (claimStep minAngle work) acc =
      (acc.1 ++ (l.filter (claimKeepB minAngle work)).map (fun i => work.getD i []),
       acc.2 + (l.filter (fun i => ! claimKeepB minAngle work i)).length) := by
  induction l generalizing acc with
  | nil => simp
  | cons i t ih =>
      rw [List.foldl_cons, ih]
      cases hk : claimKeepB minAngle work i with
      | true =>
          rw [claimStep_of_keep minAngle work acc i hk]
          simp [List.filter_cons, hk]
      | false =>
          rw [claimStep_of_drop minAngle work acc i hk]
          simp [List.filter_cons, hk]
          omega

lemma claimPass_eq (minAngle : ℝ) (work : List Pt) :
    claimPass minAngle work =
      ((List.range work.length).filter (claimKeepB minAngle work) |>.map
          (fun i => work.getD i []),
       ((List.range work.length).filter
          (fun i => ! claimKeepB minAngle work i)).length) := by
  unfold claimPass
  rw [claimPass_foldl]
  simp

/-- The ring refuting claim C1: closed, with a spike at the stored first
vertex `(1, -5)` relative to its true ring neighbors. -/
noncomputable def ringA : List Pt := [[1, -5], [2, 0], [2, 2], [0, 2], [0, 0], [1, -5]]

/-- C1 counterexample: the code's main pass does not use the working
list's last element as the predecessor of index 0 — it uses the closing
duplicate, so a spike at the stored first vertex is kept, while the
pass described by the claim drops it. -/
theorem c1_counterexample :
    mainPass 90 ringA ≠ claimPass 90 ringA.dropLast := by
  have k0 : keepB 90 ringA 0 = true := by
    rw [keepB_eq_true_iff]
    have hp : pyPrev ringA 0 = ringA.getD 0 [] := rfl
    rw [hp, calculate_angle_of_eq]
    norm_num
  have k1 : keepB 90 ringA 1 = true := by
    rw [keepB_eq_true_iff]
    show (90 : ℝ) ≤ calculate_angle [1, -5] [2, 0] [2, 2]
    exact (ninety_le_angle_iff [1, -5] [2, 0] [2, 2]
      (by norm_num [eps, dot, sub, List.zipWith])
      (by norm_num [eps, dot, sub, List.zipWith])).2
      (by norm_num [dot, sub, List.zipWith])
  have k2 : keepB 90 ringA 2 = true := by
    rw [keepB_eq_true_iff]
    show (90 : ℝ) ≤ calculate_angle [2, 0] [2, 2] [0, 2]
    exact (ninety_le_angle_iff [2, 0] [2, 2] [0, 2]
      (by norm_num [eps, dot, sub, List.zipWith])
      (by norm_num [eps, dot, sub, List.zipWith])).2
      (by norm_num [dot, sub, List.zipWith])
  have k3 : keepB 90 ringA 3 = true := by
    rw [keepB_eq_true_iff]
    show (90 : ℝ) ≤ calculate_angle [2, 2] [0, 2] [0, 0]
    exact (ninety_le_angle_iff [2, 2] [0, 2] [0, 0]
      (by norm_num [eps, dot, sub, List.zipWith])
      (by norm_num [eps, dot, sub, List.zipWith])).2
      (by norm_num [dot, sub, List.zipWith])
  have k4 : keepB 90 ringA 4 = true := by
    rw [keepB_eq_true_iff]
    show (90 : ℝ) ≤ calculate_angle [0, 2] [0, 0] [1, -5]
    exact (ninety_le_angle_iff [0, 2] [0, 0] [1, -5]
      (by norm_num [eps, dot, sub, List.zipWith])
      (by norm_num [eps, dot, sub, List.zipWith])).2
      (by norm_num [dot, sub, List.zipWith])
  have ck0 : claimKeepB 90 ringA.dropLast 0 = false := by
    rw [claimKeepB_eq_false_iff]
    show calculate_angle [0, 0] [1, -5] [2, 0] < 90
    exact angle_lt_ninety_of_dot_pos [0, 0] [1, -5] [2, 0]
      (by norm_num [eps, dot, sub, List.zipWith])
      (by norm_num [eps, dot, sub, List.zipWith])
      (by norm_num [dot, sub, List.zipWith])
  have ck1 : claimKeepB 90 ringA.dropLast 1 = true := by
    rw [claimKeepB_eq_true_iff]
    show (90 : ℝ) ≤ calculate_angle [1, -5] [2, 0] [2, 2]
    exact (ninety_le_angle_iff [1, -5] [2, 0] [2, 2]
      (by norm_num [eps, dot, sub, List.zipWith])
      (by norm_num [eps, dot, sub, List.zipWith])).2
      (by norm_num [dot, sub, List.zipWith])
  have ck2 : claimKeepB 90 ringA.dropLast 2 = true := by
    rw [claimKeepB_eq_true_iff]
    show (90 : ℝ) ≤ calculate_angle [2, 0] [2, 2] [0, 2]
    exact (ninety_le_angle_iff [2, 0] [2, 2] [0, 2]
      (by norm_num [eps, dot, sub, List.zipWith])
      (by norm_num [eps, dot, sub, List.zipWith])).2
      (by norm_num [dot, sub, List.zipWith])
  have ck3 : claimKeepB 90 ringA.dropLast 3 = true := by
    rw [claimKeepB_eq_true_iff]
    show (90 : ℝ) ≤ calculate_angle [2, 2] [0, 2] [0, 0]
    exact (ninety_le_angle_iff [2, 2] [0, 2] [0, 0]
      (by norm_num [eps, dot, sub, List.zipWith])
      (by norm_num [eps, dot, sub, List.zipWith])).2
      (by norm_num [dot, sub, List.zipWith])
  have ck4 : claimKeepB 90 ringA.dropLast 4 = true := by
    rw [claimKeepB_eq_true_iff]
    show (90 : ℝ) ≤ calculate_angle [0, 2] [0, 0] [1, -5]
    exact (ninety_le_angle_iff [0, 2] [0, 0] [1, -5]
      (by norm_num [eps, dot, sub, List.zipWith])
      (by norm_num [eps, dot, sub, List.zipWith])).2
      (by norm_num [dot, sub, List.zipWith])
  have hmain : mainPass 90 ringA = ([[1, -5], [2, 0], [2, 2], [0, 2], [0, 0]], 0) := by
    rw [mainPass_eq]
    rw [show List.range (ringA.length - 1) = [0, 1, 2, 3, 4] from rfl]
    simp only [List.filter_cons, List.filter_nil, k0, k1, k2, k3, k4]
    rfl
  have hclaim : claimPass 90 ringA.dropLast = ([[2, 0], [2, 2], [0, 2], [0, 0]], 1) := by
    rw [claimPass_eq]
    rw [show List.range ringA.dropLast.length = [0, 1, 2, 3, 4] from rfl]
    simp only [List.filter_cons, List.filter_nil, ck0, ck1, ck2, ck3, ck4]
    rfl
  rw [hmain, hclaim]
  intro h
  have h2 := congrArg Prod.snd h
  simp at h2

/-- A trivial validity oracle: everything counts as valid (the shapely
check is external to the repository). -/
def ivAll : List Pt → Bool := fun _ => true

/-- A trivial repair oracle, unreachable under `ivAll`. -/
def mvEmpty : List Pt → Geom := fun _ => Geom.empty

/-- C2: after a main pass whose output has at least 3 vertices, a seam
angle below threshold replaces the first output vertex (never drops it)
by the midpoint of the last and second output vertices and adds exactly
one to the spike count; a seam angle at or above threshold leaves the
output list and count unchanged by this step. -/
theorem c2_seam_adjustment (iv : List Pt → Bool) (mv : List Pt → Geom)
    (coords : List Pt) (fid : String) (m : ℝ) (vb : Bool)
    (h3 : 3 ≤ (mainPass m coords).1.length) :
    (calculate_angle ((mainPass m coords).1.getLastD [])
        ((mainPass m coords).1.getD 0 []) ((mainPass m coords).1.getD 1 []) < m →
      filter_polygon iv mv coords fid m vb =
        (let mid := midpt ((mainPass m coords).1.getLastD [])
            ((mainPass m coords).1.getD 1 []);
         let closed := (mid :: (mainPass m coords).1.tail) ++ [mid];
         (if iv closed then Geom.poly closed else mv closed,
          (mainPass m coords).2 + 1))) ∧
    (m ≤ calculate_angle ((mainPass m coords).1.getLastD [])
        ((mainPass m coords).1.getD 0 []) ((mainPass m coords).1.getD 1 []) →
      filter_polygon iv mv coords fid m vb =
        (let closed := (mainPass m coords).1 ++ [(mainPass m coords).1.headD []];
         (if iv closed then Geom.poly closed else mv closed,
          (mainPass m coords).2))) :=
  ⟨fun h => filter_polygon_fix iv mv coords fid m vb h3 h,
   fun h => filter_polygon_noFix iv mv coords fid m vb h3 h⟩

/-- The witness ring for C2: a square whose stored first vertex
`(10, 0)` sticks out, so only the seam re-check catches it. -/
noncomputable def ringB : List Pt := [[10, 0], [0, 0], [0, 4], [4, 4], [10, 0]]

theorem c2_seam_adjustment_witness :
    (3 ≤ (mainPass 90 ringB).1.length) ∧
    (calculate_angle ((mainPass 90 ringB).1.getLastD [])
        ((mainPass 90 ringB).1.getD 0 []) ((mainPass 90 ringB).1.getD 1 []) < 90) ∧
    filter_polygon ivAll mvEmpty ringB "f" 90 false =
      (Geom.poly [[2, 2], [0, 0], [0, 4], [4, 4], [2, 2]], 1) := by
  have k0 : keepB 90 ringB 0 = true := by
    rw [keepB_eq_true_iff]
    have hp : pyPrev ringB 0 = ringB.getD 0 [] := rfl
    rw [hp, calculate_angle_of_eq]
    norm_num
  have k1 : keepB 90 ringB 1 = true := by
    rw [keepB_eq_true_iff]
    show (90 : ℝ) ≤ calculate_angle [10, 0] [0, 0] [0, 4]
    exact (ninety_le_angle_iff [10, 0] [0, 0] [0, 4]
      (by norm_num [eps, dot, sub, List.zipWith])
      (by norm_num [eps, dot, sub, List.zipWith])).2
      (by norm_num [dot, sub, List.zipWith])
  have k2 : keepB 90 ringB 2 = true := by
    rw [keepB_eq_true_iff]
    show (90 : ℝ) ≤ calculate_angle [0, 0] [0, 4] [4, 4]
    exact (ninety_le_angle_iff [0, 0] [0, 4] [4, 4]
      (by norm_num [eps, dot, sub, List.zipWith])
      (by norm_num [eps, dot, sub, List.zipWith])).2
      (by norm_num [dot, sub, List.zipWith])
  have k3 : keepB 90 ringB 3 = true := by
    rw [keepB_eq_true_iff]
    show (90 : ℝ) ≤ calculate_angle [0, 4] [4, 4] [10, 0]
    exact (ninety_le_angle_iff [0, 4] [4, 4] [10, 0]
      (by norm_num [eps, dot, sub, List.zipWith])
      (by norm_num [eps, dot, sub, List.zipWith])).2
      (by norm_num [dot, sub, List.zipWith])
  have hmain : mainPass 90 ringB = ([[10, 0], [0, 0], [0, 4], [4, 4]], 0) := by
    rw [mainPass_eq]
    rw [show List.range (ringB.length - 1) = [0, 1, 2, 3] from rfl]
    simp only [List.filter_cons, List.filter_nil, k0, k1, k2, k3]
    rfl
  have h3 : 3 ≤ (mainPass 90 ringB).1.length := by
    rw [hmain]
    norm_num
  have hang : calculate_angle ((mainPass 90 ringB).1.getLastD [])
      ((mainPass 90 ringB).1.getD 0 []) ((mainPass 90 ringB).1.getD 1 []) < 90 := by
    rw [hmain]
    show calculate_angle [4, 4] [10, 0] [0, 0] < 90
    exact angle_lt_ninety_of_dot_pos [4, 4] [10, 0] [0, 0]
      (by norm_num [eps, dot, sub, List.zipWith])
      (by norm_num [eps, dot, sub, List.zipWith])
      (by norm_num [dot, sub, List.zipWith])
  have happ := (c2_seam_adjustment ivAll mvEmpty ringB "f" 90 false h3).1 hang
  refine ⟨h3, hang, ?_⟩
  rw [happ, hmain]
  have em : midpt (([[10, 0], [0, 0], [0, 4], [4, 4]] : List Pt).getLastD [])
      (([[10, 0], [0, 0], [0, 4], [4, 4]] : List Pt).getD 1 []) = ([2, 2] : Pt) := by
    show midpt [4, 4] [0, 0] = ([2, 2] : Pt)
    norm_num [midpt, List.zipWith]
  simp only [em]
  simp [ivAll]

/-- C3: if fewer than 3 vertices survive the main pass, `filter_polygon`
returns the empty geometry with the spike count accumulated so far,
which equals the number of working-list vertices that were removed. -/
theorem c3_ring_collapse (iv : List Pt → Bool) (mv : List Pt → Geom)
    (coords : List Pt) (fid : String) (m : ℝ) (vb : Bool)
    (h : (mainPass m coords).1.length < 3) :
    filter_polygon iv mv coords fid m vb = (Geom.empty, (mainPass m coords).2) ∧
    (mainPass m coords).2 = (coords.length - 1) - (mainPass m coords).1.length := by
  refine ⟨filter_polygon_collapse iv mv coords fid m vb h, ?_⟩
  have hs := mainPass_length_add_count m coords
  omega

/-- The witness ring for C3: every vertex except the stored first one is
a spike at threshold 90, so only one survives and the ring collapses. -/
noncomputable def ringC : List Pt := [[0, 0], [10, 0], [5, 1], [10, 2], [0, 0]]

theorem c3_ring_collapse_witness :
    ((mainPass 90 ringC).1.length < 3) ∧
    filter_polygon ivAll mvEmpty ringC "f" 90 false = (Geom.empty, 3) := by
  have k0 : keepB 90 ringC 0 = true := by
    rw [keepB_eq_true_iff]
    have hp : pyPrev ringC 0 = ringC.getD 0 [] := rfl
    rw [hp, calculate_angle_of_eq]
    norm_num
  have k1 : keepB 90 ringC 1 = false := by
    rw [keepB_eq_false_iff]
    show calculate_angle [0, 0] [10, 0] [5, 1] < 90
    exact angle_lt_ninety_of_dot_pos [0, 0] [10, 0] [5, 1]
      (by norm_num [eps, dot, sub, List.zipWith])
      (by norm_num [eps, dot, sub, List.zipWith])
      (by norm_num [dot, sub, List.zipWith])
  have k2 : keepB 90 ringC 2 = false := by
    rw [keepB_eq_false_iff]
    show calculate_angle [10, 0] [5, 1] [10, 2] < 90
    exact angle_lt_ninety_of_dot_pos [10, 0] [5, 1] [10, 2]
      (by norm_num [eps, dot, sub, List.zipWith])
      (by norm_num [eps, dot, sub, List.zipWith])
      (by norm_num [dot, sub, List.zipWith])
  have k3 : keepB 90 ringC 3 = false := by
    rw [keepB_eq_false_iff]
    show calculate_angle [5, 1] [10, 2] [0, 0] < 90
    exact angle_lt_ninety_of_dot_pos [5, 1] [10, 2] [0, 0]
      (by norm_num [eps, dot, sub, List.zipWith])
      (by norm_num [eps, dot, sub, List.zipWith])
      (by norm_num [dot, sub, List.zipWith])
  have hmain : mainPass 90 ringC = ([[0, 0]], 3) := by
    rw [mainPass_eq]
    rw [show List.range (ringC.length - 1) = [0, 1, 2, 3] from rfl]
    simp only [List.filter_cons, List.filter_nil, k0, k1, k2, k3]
    rfl
  have h : (mainPass 90 ringC).1.length < 3 := by
    rw [hmain]
    norm_num
  have happ := (c3_ring_collapse ivAll mvEmpty ringC "f" 90 false h).1
  refine ⟨h, ?_⟩
  rw [happ, hmain]

/-- C6: a closed, valid ring in which every working vertex passes the
angle threshold against its true ring neighbors is returned unchanged
(same vertex count, same coordinates) with spike count zero. -/
theorem c6_no_spike_unchanged (iv : List Pt → Bool) (mv : List Pt → Geom)
    (coords : List Pt) (fid : String) (m : ℝ) (vb : Bool)
    (hlen : 4 ≤ coords.length)
    (hcl : coords.getLastD [] = coords.getD 0 [])
    (hvalid : iv coords = true)
    (hall : ∀ i < coords.length - 1, m ≤ calculate_angle
        (coords.getD ((i + (coords.length - 1) - 1) % (coords.length - 1)) [])
        (coords.getD i [])
        (coords.getD ((i + 1) % (coords.length - 1)) [])) :
    filter_polygon iv mv coords fid m vb = (Geom.poly coords, 0) :=
  filter_polygon_of_no_spike iv mv coords fid m vb hlen hcl hvalid hall

/-- A plain closed square: every corner is a right angle. -/
noncomputable def ringD : List Pt := [[0, 0], [4, 0], [4, 4], [0, 4], [0, 0]]

/-- Every working vertex of the square passes a 90 degree threshold. -/
lemma ringD_all_pass : ∀ i < ringD.length - 1, (90 : ℝ) ≤ calculate_angle
    (ringD.getD ((i + (ringD.length - 1) - 1) % (ringD.length - 1)) [])
    (ringD.getD i [])
    (ringD.getD ((i + 1) % (ringD.length - 1)) []) := by
  intro i hi
  have hi4 : i = 0 ∨ i = 1 ∨ i = 2 ∨ i = 3 := by
    have : ringD.length - 1 = 4 := rfl
    omega
  rcases hi4 with rfl | rfl | rfl | rfl
  · show (90 : ℝ) ≤ calculate_angle [0, 4] [0, 0] [4, 0]
    exact (ninety_le_angle_iff [0, 4] [0, 0] [4, 0]
      (by norm_num [eps, dot, sub, List.zipWith])
      (by norm_num [eps, dot, sub, List.zipWith])).2
      (by norm_num [dot, sub, List.zipWith])
  · show (90 : ℝ) ≤ calculate_angle [0, 0] [4, 0] [4, 4]
    exact (ninety_le_angle_iff [0, 0] [4, 0] [4, 4]
      (by norm_num [eps, dot, sub, List.zipWith])
      (by norm_num [eps, dot, sub, List.zipWith])).2
      (by norm_num [dot, sub, List.zipWith])
  · show (90 : ℝ) ≤ calculate_angle [4, 0] [4, 4] [0, 4]
    exact (ninety_le_angle_iff [4, 0] [4, 4] [0, 4]
      (by norm_num [eps, dot, sub, List.zipWith])
      (by norm_num [eps, dot, sub, List.zipWith])).2
      (by norm_num [dot, sub, List.zipWith])
  · show (90 : ℝ) ≤ calculate_angle [4, 4] [0, 4] [0, 0]
    exact (ninety_le_angle_iff [4, 4] [0, 4] [0, 0]
      (by norm_num [eps, dot, sub, List.zipWith])
      (by norm_num [eps, dot, sub, List.zipWith])).2
      (by norm_num [dot, sub, List.zipWith])

theorem c6_no_spike_unchanged_witness :
    (4 ≤ ringD.length) ∧
    (ringD.getLastD [] = ringD.getD 0 []) ∧
    (ivAll ringD = true) ∧
    (∀ i < ringD.length - 1, (90 : ℝ) ≤ calculate_angle
        (ringD.getD ((i + (ringD.length - 1) - 1) % (ringD.length - 1)) [])
        (ringD.getD i [])
        (ringD.getD ((i + 1) % (ringD.length - 1)) [])) ∧
    filter_polygon ivAll mvEmpty ringD "f" 90 false = (Geom.poly ringD, 0) := by
  refine ⟨by norm_num [ringD], rfl, rfl, ringD_all_pass, ?_⟩
  exact c6_no_spike_unchanged ivAll mvEmpty ringD "f" 90 false
    (by norm_num [ringD]) rfl rfl ringD_all_pass

/-- A main pass that removed nothing kept the whole working list. -/
lemma mainPass_count_zero (m : ℝ) (coords : List Pt)
    (h : (mainPass m coords).2 = 0) :
    (mainPass m coords).1 = coords.dropLast := by
  have h2 : ((List.range (coords.length - 1)).filter
      (fun j => ! keepB m coords j)).length = 0 := by
    rw [mainPass_eq] at h
    exact h
  have hnil : (List.range (coords.length - 1)).filter
      (fun j => ! keepB m coords j) = [] := List.length_eq_zero.1 h2
  have hkeep : ∀ i < coords.length - 1, keepB m coords i = true := by
    intro i hi
    cases hkb : keepB m coords i with
    | true => rfl
    | false =>
        exfalso
        have hmem : i ∈ (List.range (coords.length - 1)).filter
            (fun j => ! keepB m coords j) := by
          rw [List.mem_filter]
          exact ⟨List.mem_range.2 hi, by rw [hkb]; rfl⟩
        rw [hnil] at hmem
        exact absurd hmem (List.not_mem_nil i)
  rw [mainPass_of_all_keep m coords hkeep]

/-- The ring refuting claim C5: the upward spike at `(9, 20)` is removed
by a first pass, which folds the top edge back on itself at `(12, 8)`;
a second pass then removes that vertex too. -/
noncomputable def ringE : List Pt :=
  [[0, 0], [0, 8], [8, 8], [9, 20], [12, 8], [8, 0], [0, 0]]

/-- The non-empty ring produced by filtering `ringE` once. -/
noncomputable def ringF : List Pt :=
  [[0, 0], [0, 8], [8, 8], [12, 8], [8, 0], [0, 0]]

/-- C5 counterexample: one application of the ring filter to `ringE`
yields the non-empty ring `ringF` with one spike removed, and a second
application to `ringF` removes yet another spike — so a single pass is
not idempotent. -/
theorem c5_counterexample :
    filter_polygon ivAll mvEmpty ringE "f" 90 false = (Geom.poly ringF, 1) ∧
    (filter_polygon ivAll mvEmpty ringF "f" 90 false).2 ≠ 0 := by
  have k0 : keepB 90 ringE 0 = true := by
    rw [keepB_eq_true_iff]
    have hp : pyPrev ringE 0 = ringE.getD 0 [] := rfl
    rw [hp, calculate_angle_of_eq]
    norm_num
  have k1 : keepB 90 ringE 1 = true := by
    rw [keepB_eq_true_iff]
    show (90 : ℝ) ≤ calculate_angle [0, 0] [0, 8] [8, 8]
    exact (ninety_le_angle_iff [0, 0] [0, 8] [8, 8]
      (by norm_num [eps, dot, sub, List.zipWith])
      (by norm_num [eps, dot, sub, List.zipWith])).2
      (by norm_num [dot, sub, List.zipWith])
  have k2 : keepB 90 ringE 2 = true := by
    rw [keepB_eq_true_iff]
    show (90 : ℝ) ≤ calculate_angle [0, 8] [8, 8] [9, 20]
    exact (ninety_le_angle_iff [0, 8] [8, 8] [9, 20]
      (by norm_num [eps, dot, sub, List.zipWith])
      (by norm_num [eps, dot, sub, List.zipWith])).2
      (by norm_num [dot, sub, List.zipWith])
  have k3 : keepB 90 ringE 3 = false := by
    rw [keepB_eq_false_iff]
    show calculate_angle [8, 8] [9, 20] [12, 8] < 90
    exact angle_lt_ninety_of_dot_pos [8, 8] [9, 20] [12, 8]
      (by norm_num [eps, dot, sub, List.zipWith])
      (by norm_num [eps, dot, sub, List.zipWith])
      (by norm_num [dot, sub, List.zipWith])
  have k4 : keepB 90 ringE 4 = true := by
    rw [keepB_eq_true_iff]
    show (90 : ℝ) ≤ calculate_angle [9, 20] [12, 8] [8, 0]
    exact (ninety_le_angle_iff [9, 20] [12, 8] [8, 0]
      (by norm_num [eps, dot, sub, List.zipWith])
      (by norm_num [eps, dot, sub, List.zipWith])).2
      (by norm_num [dot, sub, List.zipWith])
  have k5 : keepB 90 ringE 5 = true := by
    rw [keepB_eq_true_iff]
    show (90 : ℝ) ≤ calculate_angle [12, 8] [8, 0] [0, 0]
    exact (ninety_le_angle_iff [12, 8] [8, 0] [0, 0]
      (by norm_num [eps, dot, sub, List.zipWith])
      (by norm_num [eps, dot, sub, List.zipWith])).2
      (by norm_num [dot, sub, List.zipWith])
  have hmainE : mainPass 90 ringE =
      ([[0, 0], [0, 8], [8, 8], [12, 8], [8, 0]], 1) := by
    rw [mainPass_eq]
    rw [show List.range (ringE.length - 1) = [0, 1, 2, 3, 4, 5] from rfl]
    simp only [List.filter_cons, List.filter_nil, k0, k1, k2, k3, k4, k5]
    rfl
  have h3E : 3 ≤ (mainPass 90 ringE).1.length := by
    rw [hmainE]
    norm_num
  have hseamE : (90 : ℝ) ≤ calculate_angle ((mainPass 90 ringE).1.getLastD [])
      ((mainPass 90 ringE).1.getD 0 []) ((mainPass 90 ringE).1.getD 1 []) := by
    rw [hmainE]
    show (90 : ℝ) ≤ calculate_angle [8, 0] [0, 0] [0, 8]
    exact (ninety_le_angle_iff [8, 0] [0, 0] [0, 8]
      (by norm_num [eps, dot, sub, List.zipWith])
      (by norm_num [eps, dot, sub, List.zipWith])).2
      (by norm_num [dot, sub, List.zipWith])
  have hE : filter_polygon ivAll mvEmpty ringE "f" 90 false =
      (Geom.poly ringF, 1) := by
    rw [filter_polygon_noFix ivAll mvEmpty ringE "f" 90 false h3E hseamE, hmainE]
    rfl
  have f0 : keepB 90 ringF 0 = true := by
    rw [keepB_eq_true_iff]
    have hp : pyPrev ringF 0 = ringF.getD 0 [] := rfl
    rw [hp, calculate_angle_of_eq]
    norm_num
  have f1 : keepB 90 ringF 1 = true := by
    rw [keepB_eq_true_iff]
    show (90 : ℝ) ≤ calculate_angle [0, 0] [0, 8] [8, 8]
    exact (ninety_le_angle_iff [0, 0] [0, 8] [8, 8]
      (by norm_num [eps, dot, sub, List.zipWith])
      (by norm_num [eps, dot, sub, List.zipWith])).2
      (by norm_num [dot, sub, List.zipWith])
  have f2 : keepB 90 ringF 2 = true := by
    rw [keepB_eq_true_iff]
    show (90 : ℝ) ≤ calculate_angle [0, 8] [8, 8] [12, 8]
    exact (ninety_le_angle_iff [0, 8] [8, 8] [12, 8]
      (by norm_num [eps, dot, sub, List.zipWith])
      (by norm_num [eps, dot, sub, List.zipWith])).2
      (by norm_num [dot, sub, List.zipWith])
  have f3 : keepB 90 ringF 3 = false := by
    rw [keepB_eq_false_iff]
    show calculate_angle [8, 8] [12, 8] [8, 0] < 90
    exact angle_lt_ninety_of_dot_pos [8, 8] [12, 8] [8, 0]
      (by norm_num [eps, dot, sub, List.zipWith])
      (by norm_num [eps, dot, sub, List.zipWith])
      (by norm_num [dot, sub, List.zipWith])
  have f4 : keepB 90 ringF 4 = true := by
    rw [keepB_eq_true_iff]
    show (90 : ℝ) ≤ calculate_angle [12, 8] [8, 0] [0, 0]
    exact (ninety_le_angle_iff [12, 8] [8, 0] [0, 0]
      (by norm_num [eps, dot, sub, List.zipWith])
      (by norm_num [eps, dot, sub, List.zipWith])).2
      (by norm_num [dot, sub, List.zipWith])
  have hmainF : mainPass 90 ringF = ([[0, 0], [0, 8], [8, 8], [8, 0]], 1) := by
    rw [mainPass_eq]
    rw [show List.range (ringF.length - 1) = [0, 1, 2, 3, 4] from rfl]
    simp only [List.filter_cons, List.filter_nil, f0, f1, f2, f3, f4]
    rfl
  have h3F : 3 ≤ (mainPass 90 ringF).1.length := by
    rw [hmainF]
    norm_num
  have hseamF : (90 : ℝ) ≤ calculate_angle ((mainPass 90 ringF).1.getLastD [])
      ((mainPass 90 ringF).1.getD 0 []) ((mainPass 90 ringF).1.getD 1 []) := by
    rw [hmainF]
    show (90 : ℝ) ≤ calculate_angle [8, 0] [0, 0] [0, 8]
    exact (ninety_le_angle_iff [8, 0] [0, 0] [0, 8]
      (by norm_num [eps, dot, sub, List.zipWith])
      (by norm_num [eps, dot, sub, List.zipWith])).2
      (by norm_num [dot, sub, List.zipWith])
  have hF : (filter_polygon ivAll mvEmpty ringF "f" 90 false).2 = 1 := by
    rw [filter_polygon_noFix ivAll mvEmpty ringF "f" 90 false h3F hseamF, hmainF]
  exact ⟨hE, by rw [hF]; norm_num⟩

/-- C5 (amended): the filter is idempotent once stabilized — if an
application of the ring filter to a closed, valid ring removes zero
spikes, then it returned the ring unchanged, and re-running the filter
on that output (under any feature identifier and verbosity) again
removes zero spikes and leaves the ring unchanged. -/
theorem c5_idempotence_stabilized (iv : List Pt → Bool) (mv : List Pt → Geom)
    (coords : List Pt) (fid fid2 : String) (m : ℝ) (vb vb2 : Bool)
    (hlen : 4 ≤ coords.length)
    (hcl : coords.getLastD [] = coords.getD 0 [])
    (hvalid : iv coords = true)
    (h0 : (filter_polygon iv mv coords fid m vb).2 = 0) :
    filter_polygon iv mv coords fid m vb = (Geom.poly coords, 0) ∧
    filter_polygon iv mv coords fid2 m vb2 = (Geom.poly coords, 0) := by
  have hne : coords ≠ [] := by
    intro h
    rw [h] at hlen
    simp at hlen
  have hfirst : filter_polygon iv mv coords fid m vb = (Geom.poly coords, 0) := by
    by_cases hc : 3 ≤ (mainPass m coords).1.length
    · by_cases hseam : m ≤ calculate_angle ((mainPass m coords).1.getLastD [])
          ((mainPass m coords).1.getD 0 []) ((mainPass m coords).1.getD 1 [])
      · have happ := filter_polygon_noFix iv mv coords fid m vb hc hseam
        have hs0 : (mainPass m coords).2 = 0 := by
          rw [happ] at h0
          exact h0
        have hnc : (mainPass m coords).1 = coords.dropLast :=
          mainPass_count_zero m coords hs0
        rw [happ, hnc, hs0]
        have hhead : coords.dropLast.headD [] = coords.getD 0 [] :=
          headD_dropLast [] (by omega)
        rw [hhead, ← hcl, dropLast_append_getLastD [] hne, hvalid]
        simp
      · have happ := filter_polygon_fix iv mv coords fid m vb hc (not_le.1 hseam)
        rw [happ] at h0
        simp at h0
    · have happ := filter_polygon_collapse iv mv coords fid m vb (not_le.1 hc)
      have hs0 : (mainPass m coords).2 = 0 := by
        rw [happ] at h0
        exact h0
      have hsum := mainPass_length_add_count m coords
      omega
  have hsame : filter_polygon iv mv coords fid2 m vb2 =
      filter_polygon iv mv coords fid m vb := rfl
  exact ⟨hfirst, by rw [hsame, hfirst]⟩

/-- The square stabilizes immediately: zero spikes removed, so claim
C5's amended form applies to it. -/
theorem c5_idempotence_stabilized_witness :
    (4 ≤ ringD.length) ∧
    (ringD.getLastD [] = ringD.getD 0 []) ∧
    (ivAll ringD = true) ∧
    ((filter_polygon ivAll mvEmpty ringD "f" 90 false).2 = 0) ∧
    (filter_polygon ivAll mvEmpty ringD "f" 90 false = (Geom.poly ringD, 0) ∧
     filter_polygon ivAll mvEmpty ringD "g" 90 true = (Geom.poly ringD, 0)) := by
  have h0 : (filter_polygon ivAll mvEmpty ringD "f" 90 false).2 = 0 := by
    rw [filter_polygon_of_no_spike ivAll mvEmpty ringD "f" 90 false
      (by norm_num [ringD]) rfl rfl ringD_all_pass]
  refine ⟨by norm_num [ringD], rfl, rfl, h0, ?_⟩
  exact c5_idempotence_stabilized ivAll mvEmpty ringD "f" "g" 90 false true
    (by norm_num [ringD]) rfl rfl h0

/-- The parts contributed by one sub-result: none for an empty result,
the single ring of a polygon, or all rings of a multi-polygon. -/
def partsOf : Geom → List (List Pt)
  | Geom.empty => []
  | Geom.poly q => [q]
  | Geom.multi qs => qs

/-- The reassembly rule the spec states: zero surviving parts give the
empty geometry, exactly one gives a plain polygon, two or more give a
multi-polygon, in order. -/
def reassemble (parts : List (List Pt)) : Geom :=
  if 1 < parts.length then Geom.multi parts
  else if parts.length = 1 then Geom.poly (parts.headD []) else Geom.empty

lemma fvStep_eq (iv : List Pt → Bool) (mv : List Pt → Geom) (fid : String)
    (m : ℝ) (vb : Bool) (acc : List (List Pt) × ℕ) (ip : ℕ × List Pt) :
    fvStep iv mv fid m vb acc ip =
      (acc.1 ++ partsOf (filter_polygon iv mv ip.2
          (fid ++ "_" ++ toString (ip.1 + 1)) m vb).1,
       acc.2 + (filter_polygon iv mv ip.2
          (fid ++ "_" ++ toString (ip.1 + 1)) m vb).2) := by
  unfold fvStep
  cases hg : (filter_polygon iv mv ip.2 (fid ++ "_" ++ toString (ip.1 + 1)) m vb).1
    with
  | empty => simp [hg, partsOf]
  | poly q => simp [hg, partsOf]
  | multi qs => simp [hg, partsOf]

lemma fv_fold_general (iv : List Pt → Bool) (mv : List Pt → Geom)
    (fid : String) (m : ℝ) (vb : Bool) (l : List (ℕ × List Pt))
    (acc : List (List Pt) × ℕ) :
    l.foldl (fvStep iv mv fid m vb) acc =
      (acc.1 ++ (l.map (fun ip => partsOf (filter_polygon iv mv ip.2
          (fid ++ "_" ++ toString (ip.1 + 1)) m vb).1)).flatten,
       acc.2 + (l.map (fun ip => (filter_polygon iv mv ip.2
          (fid ++ "_" ++ toString (ip.1 + 1)) m vb).2)).sum) := by
  induction l generalizing acc with
  | nil => simp
  | cons ip t ih =>
      rw [List.foldl_cons, fvStep_eq, ih]
      simp [List.append_assoc]
      omega

/-- C4: on a MultiPolygon, `filter_vertices` filters every part in the
original order under a derived sub-identifier, skips empty sub-results,
flattens multi-part sub-results, sums the spike counts of all parts
(skipped ones included), and reassembles: zero surviving parts give
Empty, one gives a plain Polygon, two or more give a MultiPolygon in
the order produced. -/
theorem c4_multipolygon_reassembly (iv : List Pt → Bool) (mv : List Pt → Geom)
    (ps : List (List Pt)) (fid : String) (m : ℝ) (vb : Bool) :
    filter_vertices iv mv (GeomIn.multiPolygon ps) fid m vb =
      Except.ok
        (reassemble ((ps.enum.map (fun ip => partsOf (filter_polygon iv mv ip.2
            (fid ++ "_" ++ toString (ip.1 + 1)) m vb).1)).flatten),
         (ps.enum.map (fun ip => (filter_polygon iv mv ip.2
            (fid ++ "_" ++ toString (ip.1 + 1)) m vb).2)).sum) := by
  simp only [filter_vertices]
  rw [fv_fold_general iv mv fid m vb ps.enum ([], 0)]
  simp only [List.nil_append, Nat.zero_add]
  unfold reassemble
  by_cases h1 : 1 < ((ps.enum.map (fun ip => partsOf (filter_polygon iv mv ip.2
      (fid ++ "_" ++ toString (ip.1 + 1)) m vb).1)).flatten).length
  · rw [if_pos h1, if_pos h1]
  · rw [if_neg h1, if_neg h1]
    by_cases h2 : ((ps.enum.map (fun ip => partsOf (filter_polygon iv mv ip.2
        (fid ++ "_" ++ toString (ip.1 + 1)) m vb).1)).flatten).length = 1
    · rw [if_pos h2, if_pos h2]
    · rw [if_neg h2, if_neg h2]

end Unspike
